import Mathlib

/-!
# Bitmap: a shallow embedding of `bitmap.go`

The Go package keeps a packed bit array in a slice of `uint32` words and
addresses it either directly (`Set`, `getUnhashed`, `Populate`) or through a
combining function reduced modulo the bucket count (`Get`).

Conventions of the embedding:

* a `uint32` value is a `Nat`; the only operation of the package that can leave
  the 32-bit range is the shift `1 << n`, which is reduced modulo `2 ^ 32`
  (Go yields `0` for a shift count of 32 or more);
* the conversion `uint32(i)` of an `int` slice position is `i % 2 ^ 32`;
* a slice is a `List`, and a slice position (an `int`) is an unbounded `Nat`;
* the field `HashFunc` holds a function (never `nil`), as after `NewBitmap`;
* a Go run-time panic is an `Except.error` carrying the kind of the panic, and
  a method with a pointer receiver returns the updated bitmap.
-/

namespace GoBitmap

/-- The run-time panics the package can raise. -/
inductive Err where
  | indexOutOfRange
  | divideByZero
  | unsupportedHash (name : String)
  deriving DecidableEq, Repr

/-- The number of values of a `uint32`. -/
def u32 : Nat := 4294967296

/-- The `Bitmap` struct. -/
structure Bitmap where
  Bits : List Nat
  Size : Nat
  Buckets : Nat
  HashFunc : List Nat → Nat

/-! ## Bitwise operations -/

/-- `pow2`: `k = 1 << n` on `uint32`. -/
def pow2 (n : Nat) : Nat :=
  (1 <<< n) % u32

/-- The body of the loop of `log2`, entered with the loop variable equal to
the second argument; the loop stops when the variable reaches `0`. -/
def log2Loop (n : Nat) : Nat → Nat
  | 0 => 0
  | i + 1 =>
    if (n &&& pow2 (i + 1)) >>> (i + 1) = 1 then (i + 1) + 1
    else log2Loop n i

/-- `log2`: scans `i = 31, 30, ..., 1`. -/
def log2 (n : Nat) : Nat :=
  log2Loop n 31

/-! ## Hashing functions -/

/-- `PhiHash`. -/
def PhiHash (_group : List Nat) : Nat :=
  0

/-- The operator `^n` on a `uint32`: exclusive or with the word of 32 ones. -/
def compl32 (n : Nat) : Nat :=
  4294967295 ^^^ n

/-- The loop of `MHash` from position `i` on, with accumulator `res`. -/
def MHashLoop : List Nat → Nat → Nat → Nat
  | [], _, res => res
  | n :: rest, i, res =>
    if i % 2 = 1 then MHashLoop rest (i + 1) (res ^^^ compl32 n)
    else MHashLoop rest (i + 1) (res ^^^ n)

/-- `MHash`. -/
def MHash (group : List Nat) : Nat :=
  MHashLoop group 0 0

/-- `OrHash`. -/
def OrHash (group : List Nat) : Nat :=
  group.foldl (fun res n => res ||| n) 0

/-! ## Bitmap functions -/

/-- The map `hashes` of `NewBitmap`; a missing key reads as `nil`. -/
def hashes (name : String) : Option (List Nat → Nat) :=
  if name = "OrHash" then some OrHash
  else if name = "MHash" then some MHash
  else if name = "PhiHash" then some PhiHash
  else none

/-- `NewBitmap`. -/
def NewBitmap (length : Nat) (hashFunc : String) : Except Err Bitmap :=
  let nBits := pow2 (log2 length)
  let nInts := nBits / 32
  match hashes hashFunc with
  | none => Except.error (Err.unsupportedHash hashFunc)
  | some f =>
    Except.ok { Bits := List.replicate nInts 0, Size := nInts, Buckets := length, HashFunc := f }

/-- `getUnhashed`. -/
def getUnhashed (b : Bitmap) (index : Nat) : Except Err Nat :=
  let i0 := index / 32
  let i1 := index % 32
  match b.Bits[i0]? with
  | none => Except.error Err.indexOutOfRange
  | some w => Except.ok ((w &&& pow2 i1) >>> i1)

/-- `Get`. -/
def Get (b : Bitmap) (items : List Nat) : Except Err Nat :=
  if b.Buckets = 0 then Except.error Err.divideByZero
  else getUnhashed b (b.HashFunc items % b.Buckets)

/-- `Set`. -/
def Set (b : Bitmap) (index : Nat) : Except Err Bitmap :=
  let i0 := index / 32
  let i1 := index % 32
  match b.Bits[i0]? with
  | none => Except.error Err.indexOutOfRange
  | some w => Except.ok { b with Bits := b.Bits.set i0 (w ||| pow2 i1) }

/-- The loop of `Populate` from position `i` of the slice on. -/
def populateLoop (support : Nat) : List Nat → Nat → Bitmap → Except Err Bitmap
  | [], _, b => Except.ok b
  | v :: rest, i, b =>
    if v ≥ support then
      match Set b (i % u32) with
      | Except.error e => Except.error e
      | Except.ok b1 => populateLoop support rest (i + 1) b1
    else populateLoop support rest (i + 1) b

/-- `Populate`. -/
def Populate (b : Bitmap) (count : List Nat) (support : Nat) : Except Err Bitmap :=
  populateLoop support count 0 b

/-- One mutating call on a bitmap. -/
inductive Call where
  | set (index : Nat)
  | populate (count : List Nat) (support : Nat)

/-- A sequence of mutating calls, each on the state the previous one left. -/
def runCalls : Bitmap → List Call → Except Err Bitmap
  | b, [] => Except.ok b
  | b, Call.set index :: cs =>
    match Set b index with
    | Except.error e => Except.error e
    | Except.ok b1 => runCalls b1 cs
  | b, Call.populate count support :: cs =>
    match Populate b count support with
    | Except.error e => Except.error e
    | Except.ok b1 => runCalls b1 cs

/-- The word array of a result, when there is one. -/
def bitsOf : Except Err Bitmap → Option (List Nat)
  | Except.ok b => some b.Bits
  | Except.error _ => none

/-! ## Specification vocabulary -/

/-- A power of two. -/
def IsPow2 (m : Nat) : Prop :=
  ∃ k, m = 2 ^ k

/-- Whether the loop of `Populate`, entered at slice position `i`, passes the
index `j` to `Set`. -/
def hit (support : Nat) : List Nat → Nat → Nat → Bool
  | [], _, _ => false
  | v :: rest, i, j => (decide (support ≤ v) && decide (i % u32 = j)) || hit support rest (i + 1) j

/-- The same, by positions: some count that reaches the support sits at a
position whose conversion to `uint32` is `j`. -/
def Hit (support : Nat) (count : List Nat) (i j : Nat) : Prop :=
  ∃ p v, count[p]? = some v ∧ support ≤ v ∧ (i + p) % u32 = j

/-- A slice of `2 ^ 32 + 1` counts whose last count alone reaches the support `1`. -/
def wrapCount : List Nat :=
  List.replicate 4294967296 0 ++ [1]

/-- An all-zero bitmap of `2 ^ 27 + 1` words, one more than `2 ^ 32` bits need. -/
def wrapBitmap : Bitmap :=
  { Bits := List.replicate 134217729 0, Size := 134217729, Buckets := 4294967295,
    HashFunc := PhiHash }

/-- The exclusive or of all elements of a group. -/
def xorAll (group : List Nat) : Nat :=
  group.foldl (fun res n => res ^^^ n) 0

/-- The word that the complemented positions leave in `MHash`: 32 ones when the
loop, entered at position `i` on a group of `len` elements, meets an odd number
of odd positions, and `0` otherwise. -/
def maskFrom (i len : Nat) : Nat :=
  if ((i + len) / 2 - i / 2) % 2 = 1 then 4294967295 else 0

/-- The group with the elements at positions `i` and `j` exchanged; the group
itself when one of the positions is outside it. -/
def swapAt (group : List Nat) (i j : Nat) : List Nat :=
  match group[i]?, group[j]? with
  | some x, some y => (group.set i y).set j x
  | _, _ => group

/-! ## Bit-level lemmas -/

theorem pow2_of_lt {i : Nat} (h : i < 32) : pow2 i = 2 ^ i := by
  unfold pow2 u32
  rw [Nat.one_shiftLeft]
  apply Nat.mod_eq_of_lt
  calc 2 ^ i < 2 ^ 32 := Nat.pow_lt_pow_right (by decide) h
    _ = 4294967296 := by norm_num

theorem pow2_of_ge {i : Nat} (h : 32 ≤ i) : pow2 i = 0 := by
  unfold pow2 u32
  rw [Nat.one_shiftLeft]
  obtain ⟨d, rfl⟩ := Nat.exists_eq_add_of_le h
  rw [pow_add]
  norm_num

theorem and_two_pow_shiftRight (w k : Nat) :
    (w &&& 2 ^ k) >>> k = (w.testBit k).toNat := by
  apply Nat.eq_of_testBit_eq
  intro j
  rw [Nat.testBit_shiftRight, Nat.testBit_and, Nat.testBit_two_pow, Nat.testBit_bool_to_nat]
  by_cases hj : j = 0
  · subst hj; simp
  · have : ¬ (k = k + j) := by omega
    simp [hj, this]

theorem bit_read (w : Nat) {k : Nat} (h : k < 32) :
    (w &&& pow2 k) >>> k = (w.testBit k).toNat := by
  rw [pow2_of_lt h, and_two_pow_shiftRight]

/-! ## `log2` and the bit count -/

theorem lt_two_pow_of_testBit_false {n i : Nat} (h : n < 2 ^ (i + 1)) (hb : n.testBit i = false) :
    n < 2 ^ i := by
  apply Nat.lt_pow_two_of_testBit
  intro j hj
  rcases Nat.eq_or_lt_of_le hj with h1 | h1
  · rw [← h1]; exact hb
  · apply Nat.testBit_lt_two_pow
    calc n < 2 ^ (i + 1) := h
      _ ≤ 2 ^ j := Nat.pow_le_pow_right (by decide) h1

/-- The loop of `log2` entered at `i ≤ 31` on `n < 2 ^ (i + 1)`: it returns `0`
when `n < 2`, and otherwise `k + 1` for the position `k` of the highest set bit. -/
theorem log2Loop_spec (n : Nat) :
    ∀ i, i ≤ 31 → n < 2 ^ (i + 1) →
      (n < 2 → log2Loop n i = 0) ∧
      (2 ≤ n → ∃ k, 1 ≤ k ∧ k ≤ i ∧ log2Loop n i = k + 1 ∧ 2 ^ k ≤ n ∧ n < 2 ^ (k + 1)) := by
  intro i
  induction i with
  | zero =>
    intro _ hn
    refine ⟨fun _ => rfl, fun h2 => ?_⟩
    simp at hn
    omega
  | succ i ih =>
    intro hi hn
    have h32 : i + 1 < 32 := by omega
    have hread := bit_read n h32
    cases hb : n.testBit (i + 1) with
    | true =>
      have hge : 2 ^ (i + 1) ≤ n := Nat.testBit_implies_ge hb
      have hstep : log2Loop n (i + 1) = i + 1 + 1 := by
        simp [log2Loop, hread, hb]
      have h2 : 2 ≤ 2 ^ (i + 1) := by
        calc 2 = 2 ^ 1 := by norm_num
          _ ≤ 2 ^ (i + 1) := Nat.pow_le_pow_right (by decide) (by omega)
      refine ⟨fun hlt => by omega, fun _ => ⟨i + 1, by omega, le_refl _, hstep, hge, hn⟩⟩
    | false =>
      have hlt : n < 2 ^ (i + 1) := lt_two_pow_of_testBit_false hn hb
      have hstep : log2Loop n (i + 1) = log2Loop n i := by
        simp [log2Loop, hread, hb]
      obtain ⟨ih1, ih2⟩ := ih (by omega) hlt
      refine ⟨fun h => by rw [hstep]; exact ih1 h, fun h => ?_⟩
      obtain ⟨k, hk1, hk2, hk3, hk4, hk5⟩ := ih2 h
      exact ⟨k, hk1, by omega, by rw [hstep]; exact hk3, hk4, hk5⟩

theorem log2_of_lt_two {n : Nat} (h : n < 2) : log2 n = 0 :=
  (log2Loop_spec n 31 (le_refl _) (by omega)).1 h

theorem log2_spec {n : Nat} (hn : n < u32) (h : 2 ≤ n) :
    ∃ k, 1 ≤ k ∧ k ≤ 31 ∧ log2 n = k + 1 ∧ 2 ^ k ≤ n ∧ n < 2 ^ (k + 1) :=
  (log2Loop_spec n 31 (le_refl _) (by unfold u32 at hn; omega)).2 h

/-- The bit count of a capacity `2 ≤ c < 2 ^ 31`: the power of two `2 ^ (k + 1)`
with `2 ^ k ≤ c < 2 ^ (k + 1)`. -/
theorem bitCount_spec {c : Nat} (h2 : 2 ≤ c) (hc : c < 2 ^ 31) :
    ∃ k, 1 ≤ k ∧ k ≤ 30 ∧ pow2 (log2 c) = 2 ^ (k + 1) ∧ 2 ^ k ≤ c ∧ c < 2 ^ (k + 1) := by
  obtain ⟨k, hk1, hk2, hk3, hk4, hk5⟩ := log2_spec (by unfold u32; omega) h2
  have hk : k ≤ 30 := by
    by_contra hcon
    have : 2 ^ 31 ≤ 2 ^ k := Nat.pow_le_pow_right (by decide) (by omega)
    omega
  exact ⟨k, hk1, hk, by rw [hk3, pow2_of_lt (by omega)], hk4, hk5⟩

/-- The bit count of a capacity `2 ^ 31 ≤ c < 2 ^ 32` is `0`: `log2` is `32` and
the shift `1 << 32` overflows. -/
theorem bitCount_of_large {c : Nat} (h : 2 ^ 31 ≤ c) (hc : c < u32) : pow2 (log2 c) = 0 := by
  obtain ⟨k, _, hk2, hk3, _, hk5⟩ := log2_spec hc (by omega)
  have hk : k = 31 := by
    by_contra hcon
    have : 2 ^ (k + 1) ≤ 2 ^ 31 := Nat.pow_le_pow_right (by decide) (by omega)
    omega
  rw [hk3, hk]
  exact pow2_of_ge (le_refl _)

/-! ## `Set` and `getUnhashed` -/

theorem getUnhashed_of_word {b : Bitmap} {index w : Nat} (h : b.Bits[index / 32]? = some w) :
    getUnhashed b index = Except.ok (w.testBit (index % 32)).toNat := by
  have h32 : index % 32 < 32 := Nat.mod_lt _ (by decide)
  simp only [getUnhashed, h, bit_read w h32]

theorem getUnhashed_of_not_lt {b : Bitmap} {index : Nat} (h : ¬ index / 32 < b.Bits.length) :
    getUnhashed b index = Except.error Err.indexOutOfRange := by
  have : b.Bits[index / 32]? = none := List.getElem?_eq_none (by omega)
  simp only [getUnhashed, this]

theorem Set_of_word {b : Bitmap} {index w : Nat} (h : b.Bits[index / 32]? = some w) :
    Set b index =
      Except.ok { b with Bits := b.Bits.set (index / 32) (w ||| 2 ^ (index % 32)) } := by
  have h32 : index % 32 < 32 := Nat.mod_lt _ (by decide)
  simp only [Set, h, pow2_of_lt h32]

theorem Set_of_not_lt {b : Bitmap} {index : Nat} (h : ¬ index / 32 < b.Bits.length) :
    Set b index = Except.error Err.indexOutOfRange := by
  have : b.Bits[index / 32]? = none := List.getElem?_eq_none (by omega)
  simp only [Set, this]

theorem word_of_lt {b : Bitmap} {index : Nat} (h : index / 32 < b.Bits.length) :
    ∃ w, b.Bits[index / 32]? = some w :=
  ⟨b.Bits[index / 32], List.getElem?_eq_getElem h⟩

/-- After a successful `Set b i`, reading `j` gives `1` at `j = i` and the old
value elsewhere. -/
theorem getUnhashed_after_Set {b b1 : Bitmap} {i : Nat} (hs : Set b i = Except.ok b1) (j : Nat) :
    getUnhashed b1 j = if j = i then Except.ok 1 else getUnhashed b j := by
  by_cases hi : i / 32 < b.Bits.length
  · obtain ⟨w, hw⟩ := word_of_lt hi
    rw [Set_of_word hw] at hs
    injection hs with hs
    subst hs
    by_cases hji : j = i
    · subst hji
      have : (b.Bits.set (j / 32) (w ||| 2 ^ (j % 32)))[j / 32]? = some (w ||| 2 ^ (j % 32)) := by
        rw [List.getElem?_set_self hi]
      rw [getUnhashed_of_word this]
      simp [Nat.testBit_two_pow_self]
    · rw [if_neg hji]
      by_cases hw0 : j / 32 = i / 32
      · have h1 : (b.Bits.set (i / 32) (w ||| 2 ^ (i % 32)))[j / 32]?
            = some (w ||| 2 ^ (i % 32)) := by
          rw [hw0, List.getElem?_set_self hi]
        have h2 : b.Bits[j / 32]? = some w := by rw [hw0]; exact hw
        rw [getUnhashed_of_word h1, getUnhashed_of_word h2]
        have hne : i % 32 ≠ j % 32 := by omega
        simp [Nat.testBit_two_pow, hne]
      · have h1 : (b.Bits.set (i / 32) (w ||| 2 ^ (i % 32)))[j / 32]? = b.Bits[j / 32]? := by
          rw [List.getElem?_set_ne (Ne.symm hw0)]
        simp only [getUnhashed, h1]
  · rw [Set_of_not_lt hi] at hs
    cases hs

theorem Set_fields {b b1 : Bitmap} {i : Nat} (hs : Set b i = Except.ok b1) :
    b1.Bits.length = b.Bits.length ∧ b1.Size = b.Size ∧ b1.Buckets = b.Buckets ∧
      b1.HashFunc = b.HashFunc := by
  by_cases hi : i / 32 < b.Bits.length
  · obtain ⟨w, hw⟩ := word_of_lt hi
    rw [Set_of_word hw] at hs
    injection hs with hs
    subst hs
    simp
  · rw [Set_of_not_lt hi] at hs
    cases hs

/-- C1: for every bitmap and every index `i` whose word `i / 32` exists,
`Set i` succeeds, afterwards `getUnhashed i` is `1` and every other index reads
as before the call; on an all-zero word array every other index reads `0`. -/
theorem C1_Set_then_getUnhashed (b : Bitmap) (i : Nat) (h : i / 32 < b.Bits.length) :
    ∃ b1, Set b i = Except.ok b1 ∧ getUnhashed b1 i = Except.ok 1 ∧
      (∀ j, j ≠ i → getUnhashed b1 j = getUnhashed b j) ∧
      ((∀ w ∈ b.Bits, w = 0) →
        ∀ j, j ≠ i → j / 32 < b.Bits.length → getUnhashed b1 j = Except.ok 0) := by
  obtain ⟨w, hw⟩ := word_of_lt h
  refine ⟨_, Set_of_word hw, ?_, ?_, ?_⟩
  · rw [getUnhashed_after_Set (Set_of_word hw) i, if_pos rfl]
  · intro j hj
    rw [getUnhashed_after_Set (Set_of_word hw) j, if_neg hj]
  · intro hz j hj hjl
    rw [getUnhashed_after_Set (Set_of_word hw) j, if_neg hj]
    obtain ⟨v, hv⟩ := word_of_lt hjl
    have hv0 : v = 0 := hz v (List.getElem?_mem hv)
    rw [getUnhashed_of_word hv, hv0]
    simp

/-- C1 at `Set 5` on one zero word. -/
theorem C1_Set_then_getUnhashed_witness :
    5 / 32 < (Bitmap.mk [0] 1 32 OrHash).Bits.length ∧ ∃ b1, Set ⟨[0], 1, 32, OrHash⟩ 5 = Except.ok b1 ∧ getUnhashed b1 5 = Except.ok 1 ∧
      (∀ j, j ≠ 5 → getUnhashed b1 j = getUnhashed ⟨[0], 1, 32, OrHash⟩ j) ∧
      ((∀ w ∈ [0], w = 0) →
        ∀ j, j ≠ 5 → j / 32 < 1 → getUnhashed b1 j = Except.ok 0) :=
  ⟨by decide, C1_Set_then_getUnhashed ⟨[0], 1, 32, OrHash⟩ 5 (by decide)⟩

/-! ## `Populate` -/

theorem Hit_nil (support i j : Nat) : ¬ Hit support [] i j := by
  rintro ⟨p, v, h, _⟩
  simp at h

theorem Hit_cons (support v : Nat) (rest : List Nat) (i j : Nat) :
    Hit support (v :: rest) i j ↔ (support ≤ v ∧ i % u32 = j) ∨ Hit support rest (i + 1) j := by
  constructor
  · rintro ⟨p, x, hx, hs, hj⟩
    cases p with
    | zero =>
      left
      simp at hx
      subst hx
      exact ⟨hs, by simpa using hj⟩
    | succ q =>
      right
      refine ⟨q, x, by simpa using hx, hs, ?_⟩
      rw [← hj]
      congr 1
      omega
  · rintro (⟨hs, hj⟩ | ⟨q, x, hx, hs, hj⟩)
    · exact ⟨0, v, by simp, hs, by simpa using hj⟩
    · refine ⟨q + 1, x, by simpa using hx, hs, ?_⟩
      rw [← hj]
      congr 1
      omega

theorem hit_iff (support : Nat) :
    ∀ (count : List Nat) (i j : Nat), hit support count i j = true ↔ Hit support count i j := by
  intro count
  induction count with
  | nil =>
    intro i j
    simp [hit, Hit_nil]
  | cons v rest ih =>
    intro i j
    rw [Hit_cons, ← ih (i + 1) j]
    simp [hit]

/-- The loop of `Populate` succeeds when every index it passes to `Set` has
its word, and then each index reads `1` if it was passed to `Set` and its old
value otherwise. -/
theorem populateLoop_spec (support : Nat) :
    ∀ (count : List Nat) (i : Nat) (b : Bitmap),
      (∀ j, hit support count i j = true → j / 32 < b.Bits.length) →
      ∃ b1, populateLoop support count i b = Except.ok b1 ∧
        b1.Bits.length = b.Bits.length ∧
        ∀ j, getUnhashed b1 j =
          if hit support count i j = true then Except.ok 1 else getUnhashed b j := by
  intro count
  induction count with
  | nil =>
    intro i b _
    refine ⟨b, rfl, rfl, ?_⟩
    intro j
    simp [hit]
  | cons v rest ih =>
    intro i b hadd
    by_cases hv : v ≥ support
    · have h0 : (i % u32) / 32 < b.Bits.length := hadd _ (by simp [hit, hv])
      obtain ⟨w, hw⟩ := word_of_lt h0
      have hset := Set_of_word hw
      have hlen := (Set_fields hset).1
      obtain ⟨b2, hrun, hlen2, hread⟩ := ih (i + 1) _ (by
        intro j hj
        rw [hlen]
        exact hadd j (by simp [hit, hj]))
      refine ⟨b2, ?_, hlen2.trans hlen, ?_⟩
      · simp only [populateLoop, if_pos hv, hset]
        exact hrun
      · intro j
        rw [hread j, getUnhashed_after_Set hset j]
        by_cases hr : hit support rest (i + 1) j = true
        · simp [hit, hr]
        · by_cases hji : j = i % u32
          · simp [hit, hr, hji, hv]
          · have hji2 : ¬ (i % u32 = j) := fun h => hji h.symm
            simp [hit, hr, hji, hji2]
    · obtain ⟨b2, hrun, hlen2, hread⟩ := ih (i + 1) b (by
        intro j hj
        exact hadd j (by simp [hit, hj]))
      refine ⟨b2, ?_, hlen2, ?_⟩
      · simp only [populateLoop, if_neg hv]
        exact hrun
      · intro j
        rw [hread j]
        have hv2 : ¬ (support ≤ v) := hv
        simp [hit, hv2]

/-- With at most `2 ^ 32` counts the conversion `uint32(i)` changes no
position: the indices passed to `Set` are the positions whose count reaches the
support. -/
theorem hit_of_length_le {support : Nat} {count : List Nat} (hl : count.length ≤ u32) (j : Nat) :
    hit support count 0 j = true ↔ ∃ v, count[j]? = some v ∧ support ≤ v := by
  rw [hit_iff]
  constructor
  · rintro ⟨p, v, hp, hs, hj⟩
    obtain ⟨hlt, _⟩ := List.getElem?_eq_some.1 hp
    have hpj : p = j := by
      rw [← hj, Nat.zero_add, Nat.mod_eq_of_lt (by omega)]
    subst hpj
    exact ⟨v, hp, hs⟩
  · rintro ⟨v, hp, hs⟩
    obtain ⟨hlt, _⟩ := List.getElem?_eq_some.1 hp
    refine ⟨j, v, hp, hs, ?_⟩
    rw [Nat.zero_add, Nat.mod_eq_of_lt (by omega)]

theorem Set_HashFunc (b : Bitmap) (f : List Nat → Nat) (i : Nat) :
    Set { b with HashFunc := f } i =
      match Set b i with
      | Except.ok r => Except.ok { r with HashFunc := f }
      | Except.error e => Except.error e := by
  cases h : b.Bits[i / 32]? with
  | none => simp only [Set, h]
  | some w => simp only [Set, h]

theorem populateLoop_HashFunc (support : Nat) (f : List Nat → Nat) :
    ∀ (count : List Nat) (i : Nat) (b : Bitmap),
      populateLoop support count i { b with HashFunc := f } =
        match populateLoop support count i b with
        | Except.ok r => Except.ok { r with HashFunc := f }
        | Except.error e => Except.error e := by
  intro count
  induction count with
  | nil => intro i b; rfl
  | cons v rest ih =>
    intro i b
    by_cases hv : v ≥ support
    · simp only [populateLoop, if_pos hv, Set_HashFunc]
      cases Set b (i % u32) with
      | error e => rfl
      | ok r => exact ih (i + 1) r
    · simp only [populateLoop, if_neg hv]
      exact ih (i + 1) b

theorem wrap_general (N M : Nat) (hN : N % u32 = 0) (hM : N / 32 < M) :
    (∀ p, p < (List.replicate N 0 ++ [1]).length →
        p / 32 < (Bitmap.mk (List.replicate M 0) M 4294967295 PhiHash).Bits.length) ∧
    ∃ b1, Populate (Bitmap.mk (List.replicate M 0) M 4294967295 PhiHash)
          (List.replicate N 0 ++ [1]) 1 = Except.ok b1 ∧
      getUnhashed b1 0 = Except.ok 1 ∧
      getUnhashed (Bitmap.mk (List.replicate M 0) M 4294967295 PhiHash) 0 = Except.ok 0 ∧
      (N = 0 ∨ (List.replicate N 0 ++ [1])[0]? = some 0) := by
  have hhit : ∀ j, hit 1 (List.replicate N 0 ++ [1]) 0 j = true ↔ j = 0 := by
    intro j
    rw [hit_iff]
    constructor
    · rintro ⟨p, v, hp, hs, hj⟩
      have hpN : p = N := by
        by_contra hne
        rcases Nat.lt_or_gt_of_ne hne with hlt | hgt
        · rw [List.getElem?_append_left (by simpa using hlt),
            List.getElem?_replicate_of_lt hlt] at hp
          injection hp with hp
          omega
        · have : (List.replicate N 0 ++ [1])[p]? = none :=
            List.getElem?_eq_none (by simp; omega)
          rw [this] at hp
          cases hp
      rw [← hj, hpN, Nat.zero_add, hN]
    · rintro rfl
      refine ⟨N, 1, ?_, le_refl 1, by rw [Nat.zero_add, hN]⟩
      rw [List.getElem?_append_right (by simp)]
      simp
  have hM0 : 0 < M := by omega
  refine ⟨?_, ?_⟩
  · intro p hp
    have hp2 : p ≤ N := by
      simp at hp
      omega
    have : p / 32 ≤ N / 32 := Nat.div_le_div_right hp2
    simp only [List.length_replicate]
    omega
  · obtain ⟨b1, hrun, _, hread⟩ :=
      populateLoop_spec 1 (List.replicate N 0 ++ [1]) 0
        (Bitmap.mk (List.replicate M 0) M 4294967295 PhiHash) (by
          intro j hj
          rw [(hhit j).1 hj]
          simpa using hM0)
    refine ⟨b1, hrun, ?_, ?_, ?_⟩
    · rw [hread 0, if_pos ((hhit 0).2 rfl)]
    · have hw : (Bitmap.mk (List.replicate M 0) M 4294967295 PhiHash).Bits[0 / 32]? = some 0 := by
        simp [hM0]
      rw [getUnhashed_of_word hw]
      simp
    · rcases Nat.eq_zero_or_pos N with h0 | hpos
      · exact Or.inl h0
      · right
        rw [List.getElem?_append_left (by simpa using hpos),
          List.getElem?_replicate_of_lt hpos]

/-- C2, as amended: when the slice has at most `2 ^ 32` counts and the word of
every position of the slice exists, `Populate` succeeds, and afterwards an
addressable index reads `1` exactly when it read `1` before or its count
reaches the support; the resulting word array is the same whatever the
combining function of the bitmap is. -/
theorem C2_Populate_reads (b : Bitmap) (count : List Nat) (support : Nat)
    (hl : count.length ≤ u32) (hadd : ∀ p, p < count.length → p / 32 < b.Bits.length) :
    ∃ b1, Populate b count support = Except.ok b1 ∧
      (∀ j, j / 32 < b.Bits.length →
        (getUnhashed b1 j = Except.ok 1 ↔
          (getUnhashed b j = Except.ok 1 ∨ ∃ v, count[j]? = some v ∧ support ≤ v))) ∧
      (∀ f, bitsOf (Populate { b with HashFunc := f } count support) = some b1.Bits) := by
  obtain ⟨b1, hrun, _, hread⟩ := populateLoop_spec support count 0 b (by
    intro j hj
    obtain ⟨v, hp, _⟩ := (hit_of_length_le hl j).1 hj
    exact hadd j (List.getElem?_eq_some.1 hp).1)
  refine ⟨b1, hrun, ?_, ?_⟩
  · intro j _
    rw [hread j]
    by_cases hh : hit support count 0 j = true
    · rw [if_pos hh]
      exact ⟨fun _ => Or.inr ((hit_of_length_le hl j).1 hh), fun _ => rfl⟩
    · rw [if_neg hh]
      constructor
      · exact Or.inl
      · rintro (h | h)
        · exact h
        · exact absurd ((hit_of_length_le hl j).2 h) hh
  · intro f
    unfold Populate
    rw [populateLoop_HashFunc, hrun]
    rfl

/-- C2 on one zero word with the counts `[0, 5, 10, 2]` and support `5`. -/
theorem C2_Populate_reads_witness :
    ([0, 5, 10, 2] : List Nat).length ≤ u32 ∧
    (∀ p, p < ([0, 5, 10, 2] : List Nat).length → p / 32 < (Bitmap.mk [0] 1 32 OrHash).Bits.length) ∧
    ∃ b1, Populate (Bitmap.mk [0] 1 32 OrHash) [0, 5, 10, 2] 5 = Except.ok b1 ∧
      (∀ j, j / 32 < (Bitmap.mk [0] 1 32 OrHash).Bits.length →
        (getUnhashed b1 j = Except.ok 1 ↔
          (getUnhashed (Bitmap.mk [0] 1 32 OrHash) j = Except.ok 1 ∨
            ∃ v, ([0, 5, 10, 2] : List Nat)[j]? = some v ∧ 5 ≤ v))) ∧
      (∀ f, bitsOf (Populate { Bitmap.mk [0] 1 32 OrHash with HashFunc := f } [0, 5, 10, 2] 5)
        = some b1.Bits) :=
  ⟨by decide, by decide,
    C2_Populate_reads (Bitmap.mk [0] 1 32 OrHash) [0, 5, 10, 2] 5 (by decide) (by decide)⟩

/-- C2 as stated fails on a slice of `2 ^ 32 + 1` counts: every position of
`wrapCount` has its word in `wrapBitmap`, `Populate` succeeds, and index `0`
reads `1` afterwards although it read `0` before and its count `0` is below the
support `1` (the count at position `2 ^ 32` was set at `uint32(2 ^ 32) = 0`). -/
theorem C2_Populate_wraps :
    (∀ p, p < wrapCount.length → p / 32 < wrapBitmap.Bits.length) ∧
    ∃ b1, Populate wrapBitmap wrapCount 1 = Except.ok b1 ∧
      getUnhashed b1 0 = Except.ok 1 ∧
      getUnhashed wrapBitmap 0 = Except.ok 0 ∧
      wrapCount[0]? = some 0 := by
  obtain ⟨h1, b1, h2, h3, h4, h5⟩ :=
    wrap_general 4294967296 134217729 (by decide) (by decide)
  refine ⟨h1, b1, h2, h3, h4, ?_⟩
  rcases h5 with h5 | h5
  · exact absurd h5 (by decide)
  · exact h5

/-! ## `NewBitmap` and `Get` -/

theorem NewBitmap_of_hashes {length : Nat} {name : String} {f : List Nat → Nat}
    (h : hashes name = some f) :
    NewBitmap length name =
      Except.ok { Bits := List.replicate (pow2 (log2 length) / 32) 0,
                  Size := pow2 (log2 length) / 32, Buckets := length, HashFunc := f } := by
  simp only [NewBitmap, h]

theorem NewBitmap_of_hashes_none {length : Nat} {name : String} (h : hashes name = none) :
    NewBitmap length name = Except.error (Err.unsupportedHash name) := by
  simp only [NewBitmap, h]

theorem hashes_eq_none_iff (name : String) :
    hashes name = none ↔ ¬ (name = "OrHash" ∨ name = "MHash" ∨ name = "PhiHash") := by
  unfold hashes
  by_cases h1 : name = "OrHash"
  · simp [h1]
  · by_cases h2 : name = "MHash"
    · simp [h2]
    · by_cases h3 : name = "PhiHash"
      · simp [h3]
      · simp [h1, h2, h3]

/-- What a successful `NewBitmap` returns. -/
theorem NewBitmap_ok {length : Nat} {name : String} {b : Bitmap}
    (h : NewBitmap length name = Except.ok b) :
    b.Bits = List.replicate (pow2 (log2 length) / 32) 0 ∧ b.Size = pow2 (log2 length) / 32 ∧
      b.Buckets = length ∧ hashes name = some b.HashFunc := by
  cases hh : hashes name with
  | none =>
    rw [NewBitmap_of_hashes_none hh] at h
    cases h
  | some f =>
    rw [NewBitmap_of_hashes hh] at h
    injection h with h
    subst h
    exact ⟨rfl, rfl, rfl, rfl⟩

theorem Get_of_pos {b : Bitmap} (items : List Nat) (h : 0 < b.Buckets) :
    Get b items = getUnhashed b (b.HashFunc items % b.Buckets) := by
  have : b.Buckets ≠ 0 := by omega
  simp only [Get, if_neg this]

theorem Get_of_zero {b : Bitmap} (items : List Nat) (h : b.Buckets = 0) :
    Get b items = Except.error Err.divideByZero := by
  simp only [Get, if_pos h]

theorem toNat_eq_one (x : Bool) : ((Except.ok x.toNat : Except Err Nat) = Except.ok 1) ↔ x = true := by
  cases x <;> simp

/-- C3: on the bitmap `NewBitmap 4 "OrHash"` returns, whose bit count
`pow2 (log2 4) = 8` gives `8 / 32 = 0` words, `Populate [0, 5, 10, 2] 5` does
not complete: the first `Set`, at index `1`, is out of range, as is every read. -/
theorem C3_Populate_capacity_4_fails :
    pow2 (log2 4) = 8 ∧
    NewBitmap 4 "OrHash" = Except.ok ⟨[], 0, 4, OrHash⟩ ∧
    Populate ⟨[], 0, 4, OrHash⟩ [0, 5, 10, 2] 5 = Except.error Err.indexOutOfRange ∧
    Set ⟨[], 0, 4, OrHash⟩ 1 = Except.error Err.indexOutOfRange ∧
    getUnhashed ⟨[], 0, 4, OrHash⟩ 1 = Except.error Err.indexOutOfRange := by
  refine ⟨by decide, ?_, ?_, ?_, ?_⟩
  · have h : hashes "OrHash" = some OrHash := rfl
    rw [NewBitmap_of_hashes h]
    have h8 : pow2 (log2 4) = 8 := by decide
    rw [h8]
    rfl
  · rfl
  · rfl
  · rfl

/-- C4: when `Buckets > 0` and the word of `idx = HashFunc items % Buckets`
exists, `Get items` is `getUnhashed idx`, it is `0` or `1`, it is `1` exactly
when bit `idx % 32` of word `idx / 32` is set, it is `0` on a bitmap as
`NewBitmap` returns it, and it is `1` after `Set idx`. -/
theorem C4_Get_reads_bucket (b : Bitmap) (items : List Nat) (hB : 0 < b.Buckets)
    (hadd : (b.HashFunc items % b.Buckets) / 32 < b.Bits.length) :
    Get b items = getUnhashed b (b.HashFunc items % b.Buckets) ∧
    (Get b items = Except.ok 0 ∨ Get b items = Except.ok 1) ∧
    (Get b items = Except.ok 1 ↔
      ∃ w, b.Bits[(b.HashFunc items % b.Buckets) / 32]? = some w ∧
        w.testBit ((b.HashFunc items % b.Buckets) % 32) = true) ∧
    (∀ length name, NewBitmap length name = Except.ok b → Get b items = Except.ok 0) ∧
    (∃ b1, Set b (b.HashFunc items % b.Buckets) = Except.ok b1 ∧ Get b1 items = Except.ok 1) := by
  obtain ⟨w, hw⟩ := word_of_lt hadd
  have hget : Get b items = Except.ok (w.testBit ((b.HashFunc items % b.Buckets) % 32)).toNat := by
    rw [Get_of_pos items hB, getUnhashed_of_word hw]
  refine ⟨Get_of_pos items hB, ?_, ?_, ?_, ?_⟩
  · rw [hget]
    cases w.testBit ((b.HashFunc items % b.Buckets) % 32)
    · exact Or.inl rfl
    · exact Or.inr rfl
  · rw [hget, toNat_eq_one]
    constructor
    · intro h
      exact ⟨w, hw, h⟩
    · rintro ⟨v, hv, h⟩
      rw [hw] at hv
      injection hv with hv
      rw [hv]
      exact h
  · intro length name hnew
    have hbits := (NewBitmap_ok hnew).1
    have hmem : w ∈ List.replicate (pow2 (log2 length) / 32) 0 := by
      rw [← hbits]
      exact List.getElem?_mem hw
    have hw0 : w = 0 := (List.mem_replicate.1 hmem).2
    rw [hget, hw0]
    simp
  · have hset := Set_of_word hw
    refine ⟨_, hset, ?_⟩
    have hf := Set_fields hset
    rw [Get_of_pos items (by rw [hf.2.2.1]; exact hB), hf.2.2.1, hf.2.2.2,
      getUnhashed_after_Set hset, if_pos rfl]

/-- C4 on the 16-bucket bitmap of one zero word, `OrHash`, and the group `[3, 4]`. -/
theorem C4_Get_reads_bucket_witness :
    0 < (Bitmap.mk [0] 1 16 OrHash).Buckets ∧
    (OrHash [3, 4] % 16) / 32 < (Bitmap.mk [0] 1 16 OrHash).Bits.length ∧
    Get (Bitmap.mk [0] 1 16 OrHash) [3, 4] = getUnhashed (Bitmap.mk [0] 1 16 OrHash) 7 ∧
    (∃ b1, Set (Bitmap.mk [0] 1 16 OrHash) 7 = Except.ok b1 ∧ Get b1 [3, 4] = Except.ok 1) :=
  ⟨by decide, by decide,
    (C4_Get_reads_bucket (Bitmap.mk [0] 1 16 OrHash) [3, 4] (by decide) (by decide)).1,
    (C4_Get_reads_bucket (Bitmap.mk [0] 1 16 OrHash) [3, 4] (by decide) (by decide)).2.2.2.2⟩

/-- C5: `NewBitmap` fails exactly when the name is none of `"OrHash"`, `"MHash"`,
`"PhiHash"`, and then with the unsupported-function panic; with one of the
three names it returns a bitmap whose `HashFunc` is the function of that name.
`NewBitmap 16 "unknown"` fails. -/
theorem C5_NewBitmap_name (capacity : Nat) (name : String) :
    ((∃ e, NewBitmap capacity name = Except.error e) ↔
      ¬ (name = "OrHash" ∨ name = "MHash" ∨ name = "PhiHash")) ∧
    ((∃ b, NewBitmap capacity name = Except.ok b) ↔
      (name = "OrHash" ∨ name = "MHash" ∨ name = "PhiHash")) ∧
    (∃ b, NewBitmap capacity "OrHash" = Except.ok b ∧ ∀ g, b.HashFunc g = OrHash g) ∧
    (∃ b, NewBitmap capacity "MHash" = Except.ok b ∧ ∀ g, b.HashFunc g = MHash g) ∧
    (∃ b, NewBitmap capacity "PhiHash" = Except.ok b ∧ ∀ g, b.HashFunc g = PhiHash g) ∧
    NewBitmap 16 "unknown" = Except.error (Err.unsupportedHash "unknown") := by
  have hor : hashes "OrHash" = some OrHash := rfl
  have hm : hashes "MHash" = some MHash := rfl
  have hphi : hashes "PhiHash" = some PhiHash := rfl
  have hun : hashes "unknown" = none := rfl
  refine ⟨?_, ?_, ⟨_, NewBitmap_of_hashes hor, fun _ => rfl⟩, ⟨_, NewBitmap_of_hashes hm, fun _ => rfl⟩,
    ⟨_, NewBitmap_of_hashes hphi, fun _ => rfl⟩, NewBitmap_of_hashes_none hun⟩
  · rw [← hashes_eq_none_iff]
    constructor
    · rintro ⟨e, he⟩
      cases hh : hashes name with
      | none => rfl
      | some f =>
        rw [NewBitmap_of_hashes hh] at he
        cases he
    · intro hh
      exact ⟨_, NewBitmap_of_hashes_none hh⟩
  · constructor
    · rintro ⟨b, hb⟩
      by_contra hcon
      rw [NewBitmap_of_hashes_none ((hashes_eq_none_iff name).2 hcon)] at hb
      cases hb
    · intro hn
      cases hh : hashes name with
      | none => exact absurd hn ((hashes_eq_none_iff name).1 hh)
      | some f => exact ⟨_, NewBitmap_of_hashes hh⟩

/-- C6: for every capacity `c` (so for every `c ≥ 2`), `NewBitmap c "OrHash"`
returns a bitmap whose word array has `pow2 (log2 c) / 32` words, all `0`,
whose `Size` is that number of words and whose `Buckets` is `c`. -/
theorem C6_NewBitmap_words (c : Nat) :
    ∃ b, NewBitmap c "OrHash" = Except.ok b ∧ b.Bits.length = pow2 (log2 c) / 32 ∧
      (∀ w ∈ b.Bits, w = 0) ∧
      b.Size = pow2 (log2 c) / 32 ∧ b.Buckets = c ∧ pow2 (log2 c) < u32 := by
  have hor : hashes "OrHash" = some OrHash := rfl
  refine ⟨_, NewBitmap_of_hashes hor, by simp, ?_, rfl, rfl, ?_⟩
  · intro w hw
    exact (List.mem_replicate.1 hw).2
  · unfold pow2
    exact Nat.mod_lt _ (by decide)

theorem not_isPow2_zero : ¬ IsPow2 0 := by
  rintro ⟨k, hk⟩
  have : 0 < 2 ^ k := Nat.two_pow_pos _
  omega

/-- C7, as amended: for every capacity `c < 2 ^ 31` that is not a power of two
`2 ^ k` with `k ≥ 1`, the bit count `pow2 (log2 c)` is a power of two, is at
least `c`, and is at most every power of two that is at least `c`. -/
theorem C7_bitCount_smallest (c : Nat) (hc : c < 2 ^ 31) (hnp : ∀ k, 1 ≤ k → c ≠ 2 ^ k) :
    IsPow2 (pow2 (log2 c)) ∧ c ≤ pow2 (log2 c) ∧
      ∀ m, IsPow2 m → c ≤ m → pow2 (log2 c) ≤ m := by
  by_cases h2 : c < 2
  · rw [log2_of_lt_two h2]
    have h1 : pow2 0 = 1 := by decide
    rw [h1]
    refine ⟨⟨0, rfl⟩, by omega, ?_⟩
    rintro m ⟨j, rfl⟩ _
    exact Nat.two_pow_pos _
  · obtain ⟨k, hk1, _, hk3, hk4, hk5⟩ := bitCount_spec (by omega) hc
    rw [hk3]
    refine ⟨⟨k + 1, rfl⟩, by omega, ?_⟩
    rintro m ⟨j, rfl⟩ hcm
    have hne : c ≠ 2 ^ k := hnp k hk1
    have hkj : k < j := by
      by_contra hcon
      have : 2 ^ j ≤ 2 ^ k := Nat.pow_le_pow_right (by decide) (by omega)
      omega
    exact Nat.pow_le_pow_right (by decide) hkj

/-- C7 at the capacity `3`. -/
theorem C7_bitCount_smallest_witness :
    3 < 2 ^ 31 ∧ (∀ k, 1 ≤ k → 3 ≠ 2 ^ k) ∧
    IsPow2 (pow2 (log2 3)) ∧ 3 ≤ pow2 (log2 3) ∧
      ∀ m, IsPow2 m → 3 ≤ m → pow2 (log2 3) ≤ m :=
  have hnp : ∀ k, 1 ≤ k → 3 ≠ 2 ^ k := by
    intro k hk h
    have hdvd : 2 ∣ 2 ^ k := dvd_pow_self 2 (by omega)
    rw [← h] at hdvd
    omega
  ⟨by norm_num, hnp, C7_bitCount_smallest 3 (by norm_num) hnp⟩

/-- C7 as stated fails: at the capacity `2 ^ 31 + 1` the bit count is `0`
(`log2` is `32` and `1 << 32` is `0` on 32 bits), which is neither a power of
two nor at least the capacity; and at the power of two `4` the bit count is `8`. -/
theorem C7_bitCount_not_smallest :
    pow2 (log2 2147483649) = 0 ∧ ¬ IsPow2 (pow2 (log2 2147483649)) ∧
    ¬ (2147483649 ≤ pow2 (log2 2147483649)) ∧
    pow2 (log2 4) = 8 ∧ pow2 (log2 4) ≠ 4 := by
  have h0 : pow2 (log2 2147483649) = 0 := by decide
  refine ⟨h0, ?_, ?_, by decide, by decide⟩
  · rw [h0]; exact not_isPow2_zero
  · rw [h0]; decide

theorem populateLoop_fields (support : Nat) :
    ∀ (count : List Nat) (i : Nat) (b b1 : Bitmap),
      populateLoop support count i b = Except.ok b1 →
      b1.Bits.length = b.Bits.length ∧ b1.Size = b.Size ∧ b1.Buckets = b.Buckets ∧
        b1.HashFunc = b.HashFunc := by
  intro count
  induction count with
  | nil =>
    intro i b b1 h
    injection h with h
    subst h
    exact ⟨rfl, rfl, rfl, rfl⟩
  | cons v rest ih =>
    intro i b b1 h
    by_cases hv : v ≥ support
    · simp only [populateLoop, if_pos hv] at h
      cases hs : Set b (i % u32) with
      | error e =>
        rw [hs] at h
        cases h
      | ok b2 =>
        rw [hs] at h
        obtain ⟨h1, h2, h3, h4⟩ := ih (i + 1) b2 b1 h
        obtain ⟨g1, g2, g3, g4⟩ := Set_fields hs
        exact ⟨h1.trans g1, h2.trans g2, h3.trans g3, h4.trans g4⟩
    · simp only [populateLoop, if_neg hv] at h
      exact ih (i + 1) b b1 h

theorem runCalls_fields :
    ∀ (calls : List Call) (b b1 : Bitmap), runCalls b calls = Except.ok b1 →
      b1.Bits.length = b.Bits.length ∧ b1.Size = b.Size ∧ b1.Buckets = b.Buckets ∧
        b1.HashFunc = b.HashFunc := by
  intro calls
  induction calls with
  | nil =>
    intro b b1 h
    injection h with h
    subst h
    exact ⟨rfl, rfl, rfl, rfl⟩
  | cons c cs ih =>
    intro b b1 h
    cases c with
    | set index =>
      simp only [runCalls] at h
      cases hs : Set b index with
      | error e =>
        rw [hs] at h
        cases h
      | ok b2 =>
        rw [hs] at h
        obtain ⟨h1, h2, h3, h4⟩ := ih b2 b1 h
        obtain ⟨g1, g2, g3, g4⟩ := Set_fields hs
        exact ⟨h1.trans g1, h2.trans g2, h3.trans g3, h4.trans g4⟩
    | populate count support =>
      simp only [runCalls] at h
      cases hs : Populate b count support with
      | error e =>
        rw [hs] at h
        cases h
      | ok b2 =>
        rw [hs] at h
        obtain ⟨h1, h2, h3, h4⟩ := ih b2 b1 h
        obtain ⟨g1, g2, g3, g4⟩ := populateLoop_fields support count 0 b b2 hs
        exact ⟨h1.trans g1, h2.trans g2, h3.trans g3, h4.trans g4⟩

/-- For a capacity `16 ≤ length < 2 ^ 31` the bit count is a multiple of `32`. -/
theorem bitCount_div_mul {length : Nat} (h16 : 16 ≤ length) (hlt : length < 2 ^ 31) :
    pow2 (log2 length) / 32 * 32 = pow2 (log2 length) := by
  obtain ⟨k, _, _, hk3, _, hk5⟩ := bitCount_spec (by omega) hlt
  have hk : 4 ≤ k := by
    by_contra hcon
    have : 2 ^ (k + 1) ≤ 2 ^ 4 := Nat.pow_le_pow_right (by decide) (by omega)
    omega
  obtain ⟨d, rfl⟩ := Nat.exists_eq_add_of_le hk
  rw [hk3]
  have : 2 ^ (4 + d + 1) = 2 ^ d * 32 := by
    rw [show 4 + d + 1 = d + 5 by omega, pow_add]
    norm_num
  rw [this, Nat.mul_div_cancel _ (by decide)]

/-- For a capacity `16 ≤ length < 2 ^ 31` the indices whose word exists in the
bitmap `NewBitmap` returns are those below the bit count. -/
theorem word_exists_iff_lt_bitCount {length : Nat} {name : String} {b : Bitmap}
    (h16 : 16 ≤ length) (hlt : length < 2 ^ 31) (hnew : NewBitmap length name = Except.ok b)
    (index : Nat) :
    index / 32 < b.Bits.length ↔ index < pow2 (log2 length) := by
  have hlen : b.Bits.length = pow2 (log2 length) / 32 := by
    rw [(NewBitmap_ok hnew).1, List.length_replicate]
  have hmul := bitCount_div_mul h16 hlt
  rw [hlen]
  omega

/-- C8, as amended: for a capacity `16 ≤ length < 2 ^ 31`, on the bitmap
`NewBitmap length name` returns and on every state a sequence of successful
`Set` and `Populate` calls reaches from it, the bit count `pow2 (log2 length)`
is a power of two and the word array has `32` bits for each of its words:
`len(Bits) * 32 = pow2 (log2 length)`. -/
theorem C8_bitCount_invariant (length : Nat) (name : String) (calls : List Call) (b b1 : Bitmap)
    (h16 : 16 ≤ length) (hlt : length < 2 ^ 31)
    (hnew : NewBitmap length name = Except.ok b) (hrun : runCalls b calls = Except.ok b1) :
    IsPow2 (pow2 (log2 length)) ∧ b1.Bits.length * 32 = pow2 (log2 length) := by
  constructor
  · obtain ⟨k, _, _, hk3, _, _⟩ := bitCount_spec (by omega) hlt
    exact ⟨k + 1, hk3⟩
  · rw [(runCalls_fields calls b b1 hrun).1, (NewBitmap_ok hnew).1, List.length_replicate]
    exact bitCount_div_mul h16 hlt

/-- C8 at the capacity `16`, after `Set 5` and `Populate [0, 5, 10, 2] 5`. -/
theorem C8_bitCount_invariant_witness :
    16 ≤ 16 ∧ 16 < 2 ^ 31 ∧
    NewBitmap 16 "OrHash" = Except.ok ⟨[0], 1, 16, OrHash⟩ ∧
    runCalls ⟨[0], 1, 16, OrHash⟩ [Call.set 5, Call.populate [0, 5, 10, 2] 5]
      = Except.ok ⟨[38], 1, 16, OrHash⟩ ∧
    IsPow2 (pow2 (log2 16)) ∧ (Bitmap.mk [38] 1 16 OrHash).Bits.length * 32 = pow2 (log2 16) :=
  ⟨by decide, by norm_num, rfl, rfl,
    C8_bitCount_invariant 16 "OrHash" [Call.set 5, Call.populate [0, 5, 10, 2] 5]
      ⟨[0], 1, 16, OrHash⟩ ⟨[38], 1, 16, OrHash⟩ (by decide) (by norm_num) rfl rfl⟩

/-- C8 as stated fails: at the capacity `2 ^ 31 + 1` the bit count is `0`, not
a power of two; and at the capacity `4` the bit count is `8` while the word
array is empty. -/
theorem C8_bitCount_invariant_fails :
    pow2 (log2 2147483649) = 0 ∧ ¬ IsPow2 (pow2 (log2 2147483649)) ∧
    NewBitmap 2147483649 "OrHash" = Except.ok ⟨[], 0, 2147483649, OrHash⟩ ∧
    pow2 (log2 4) = 8 ∧
    NewBitmap 4 "MHash" = Except.ok ⟨[], 0, 4, MHash⟩ ∧
    (Bitmap.mk [] 0 4 MHash).Bits.length * 32 ≠ pow2 (log2 4) := by
  have h0 : pow2 (log2 2147483649) = 0 := by decide
  have h8 : pow2 (log2 4) = 8 := by decide
  have hor : hashes "OrHash" = some OrHash := rfl
  have hm : hashes "MHash" = some MHash := rfl
  refine ⟨h0, ?_, ?_, h8, ?_, ?_⟩
  · rw [h0]; exact not_isPow2_zero
  · rw [NewBitmap_of_hashes hor, h0]; rfl
  · rw [NewBitmap_of_hashes hm, h8]; rfl
  · rw [h8]; decide

/-- C9 at the bitmap `NewBitmap 4 "PhiHash"` returns: its bit count
`pow2 (log2 4)` is `8`, and at the index `5 < 8` both `Set` and `getUnhashed`
fail with index out of range, because `8 / 32 = 0` words were allocated. -/
theorem C9_in_range_index_fails :
    pow2 (log2 4) = 8 ∧ 5 < pow2 (log2 4) ∧
    NewBitmap 4 "PhiHash" = Except.ok ⟨[], 0, 4, PhiHash⟩ ∧
    Set ⟨[], 0, 4, PhiHash⟩ 5 = Except.error Err.indexOutOfRange ∧
    getUnhashed ⟨[], 0, 4, PhiHash⟩ 5 = Except.error Err.indexOutOfRange := by
  have h8 : pow2 (log2 4) = 8 := by decide
  have hphi : hashes "PhiHash" = some PhiHash := rfl
  refine ⟨h8, by rw [h8]; decide, ?_, rfl, rfl⟩
  rw [NewBitmap_of_hashes hphi, h8]
  rfl

/-! ## `MHash` -/

theorem compl32_eq_sub {n : Nat} (h : n < u32) : compl32 n = 4294967295 - n := by
  have h32 : n < 2 ^ 32 := by unfold u32 at h; omega
  have e1 : (4294967295 : Nat) = 2 ^ 32 - 1 := by norm_num
  have e2 : 4294967295 - n = 2 ^ 32 - (n + 1) := by omega
  unfold compl32
  rw [e2, e1]
  apply Nat.eq_of_testBit_eq
  intro i
  rw [Nat.testBit_xor, Nat.testBit_two_pow_sub_one, Nat.testBit_two_pow_sub_succ h32]
  by_cases hi : i < 32
  · simp [hi]
  · have : n.testBit i = false := by
      apply Nat.testBit_lt_two_pow
      calc n < 2 ^ 32 := h32
        _ ≤ 2 ^ i := Nat.pow_le_pow_right (by decide) (by omega)
    simp [hi, this]

/-- C10: for 32-bit `a` and `b`, `MHash [a] = a` and `MHash [a, b]` is `a` XOR
the 32-bit complement of `b`, the word `2 ^ 32 - 1 - b`; the result is again a
32-bit value. -/
theorem C10_MHash_one_two (a b : Nat) (ha : a < u32) (hb : b < u32) :
    MHash [a] = a ∧ MHash [a, b] = a ^^^ (4294967295 - b) ∧ MHash [a, b] < u32 := by
  have h1 : MHash [a] = a := by
    simp [MHash, MHashLoop]
  have h2 : MHash [a, b] = a ^^^ (4294967295 - b) := by
    simp [MHash, MHashLoop, compl32_eq_sub hb]
  refine ⟨h1, h2, ?_⟩
  rw [h2]
  have ha32 : a < 2 ^ 32 := by unfold u32 at ha; omega
  have hb32 : 4294967295 - b < 2 ^ 32 := by omega
  have := Nat.xor_lt_two_pow ha32 hb32
  unfold u32
  omega

/-- C10 at `a = 12` and `b = 10`. -/
theorem C10_MHash_one_two_witness :
    12 < u32 ∧ 10 < u32 ∧
    MHash [12] = 12 ∧ MHash [12, 10] = 12 ^^^ (4294967295 - 10) ∧ MHash [12, 10] < u32 :=
  ⟨by decide, by decide, C10_MHash_one_two 12 10 (by decide) (by decide)⟩

theorem foldl_xor_init (g : List Nat) :
    ∀ r, g.foldl (fun res n => res ^^^ n) r = r ^^^ xorAll g := by
  unfold xorAll
  induction g with
  | nil => intro r; simp
  | cons n rest ih =>
    intro r
    simp only [List.foldl_cons]
    rw [ih (r ^^^ n), ih (0 ^^^ n), Nat.zero_xor, Nat.xor_assoc]

theorem xorAll_cons (n : Nat) (rest : List Nat) : xorAll (n :: rest) = n ^^^ xorAll rest := by
  have h := foldl_xor_init rest (0 ^^^ n)
  rw [Nat.zero_xor] at h
  simp only [xorAll, List.foldl_cons, Nat.zero_xor]
  exact h

theorem maskFrom_zero (i : Nat) : maskFrom i 0 = 0 := by
  simp [maskFrom]

theorem maskFrom_succ_odd {i : Nat} (h : i % 2 = 1) (len : Nat) :
    maskFrom i (len + 1) = 4294967295 ^^^ maskFrom (i + 1) len := by
  unfold maskFrom
  have e : (i + (len + 1)) / 2 - i / 2 = ((i + 1 + len) / 2 - (i + 1) / 2) + 1 := by omega
  rw [e]
  by_cases hc : ((i + 1 + len) / 2 - (i + 1) / 2) % 2 = 1
  · have : ¬ ((((i + 1 + len) / 2 - (i + 1) / 2) + 1) % 2 = 1) := by omega
    rw [if_pos hc, if_neg this, Nat.xor_self]
  · have : (((i + 1 + len) / 2 - (i + 1) / 2) + 1) % 2 = 1 := by omega
    rw [if_neg hc, if_pos this, Nat.xor_zero]

theorem maskFrom_succ_even {i : Nat} (h : ¬ i % 2 = 1) (len : Nat) :
    maskFrom i (len + 1) = maskFrom (i + 1) len := by
  unfold maskFrom
  have e : (i + (len + 1)) / 2 - i / 2 = (i + 1 + len) / 2 - (i + 1) / 2 := by omega
  rw [e]

/-- The loop of `MHash` in closed form: the accumulator, the exclusive or of the
remaining elements, and the word left by the complemented positions. -/
theorem MHashLoop_closed :
    ∀ (g : List Nat) (i res : Nat),
      MHashLoop g i res = (res ^^^ xorAll g) ^^^ maskFrom i g.length := by
  intro g
  induction g with
  | nil =>
    intro i res
    simp [MHashLoop, xorAll, maskFrom_zero]
  | cons n rest ih =>
    intro i res
    by_cases hi : i % 2 = 1
    · simp only [MHashLoop, if_pos hi, List.length_cons]
      rw [ih, maskFrom_succ_odd hi, xorAll_cons]
      unfold compl32
      generalize maskFrom (i + 1) rest.length = m
      generalize xorAll rest = x
      apply Nat.eq_of_testBit_eq
      intro k
      simp only [Nat.testBit_xor]
      cases res.testBit k <;> cases n.testBit k <;> cases x.testBit k <;>
        cases m.testBit k <;> cases (4294967295 : Nat).testBit k <;> rfl
    · simp only [MHashLoop, if_neg hi, List.length_cons]
      rw [ih, maskFrom_succ_even hi, xorAll_cons, Nat.xor_assoc res n]

theorem MHash_closed (g : List Nat) : MHash g = xorAll g ^^^ maskFrom 0 g.length := by
  unfold MHash
  rw [MHashLoop_closed, Nat.zero_xor]

theorem xorAll_set :
    ∀ (g : List Nat) (i x y : Nat), g[i]? = some y →
      xorAll (g.set i x) = (xorAll g ^^^ y) ^^^ x := by
  intro g
  induction g with
  | nil =>
    intro i x y h
    simp at h
  | cons a rest ih =>
    intro i x y h
    cases i with
    | zero =>
      simp at h
      subst h
      simp only [List.set_cons_zero, xorAll_cons]
      generalize xorAll rest = r
      apply Nat.eq_of_testBit_eq
      intro k
      simp only [Nat.testBit_xor]
      cases a.testBit k <;> cases r.testBit k <;> cases x.testBit k <;> rfl
    | succ q =>
      have hq : rest[q]? = some y := by simpa using h
      simp only [List.set_cons_succ, xorAll_cons, ih q x y hq]
      generalize xorAll rest = r
      apply Nat.eq_of_testBit_eq
      intro k
      simp only [Nat.testBit_xor]
      cases a.testBit k <;> cases r.testBit k <;> cases x.testBit k <;>
        cases y.testBit k <;> rfl

theorem xorAll_swap {g : List Nat} {i j x y : Nat} (hx : g[i]? = some x) (hy : g[j]? = some y) :
    xorAll ((g.set i y).set j x) = xorAll g := by
  have hj : (g.set i y)[j]? = some y := by
    by_cases hij : i = j
    · subst hij
      rw [List.getElem?_set_self (List.getElem?_eq_some.1 hx).1]
    · rw [List.getElem?_set_ne hij]
      exact hy
  rw [xorAll_set _ j x y hj, xorAll_set g i y x hx]
  generalize xorAll g = r
  apply Nat.eq_of_testBit_eq
  intro k
  simp only [Nat.testBit_xor]
  cases r.testBit k <;> cases x.testBit k <;> cases y.testBit k <;> rfl

/-- C11, as amended: exchanging the elements at two positions of a group,
whatever their parity and their values, leaves the result of `MHash` unchanged. -/
theorem C11_MHash_swap_same (g : List Nat) (i j x y : Nat)
    (hx : g[i]? = some x) (hy : g[j]? = some y) :
    swapAt g i j = (g.set i y).set j x ∧ MHash (swapAt g i j) = MHash g := by
  have hs : swapAt g i j = (g.set i y).set j x := by
    simp only [swapAt, hx, hy]
  refine ⟨hs, ?_⟩
  rw [hs, MHash_closed, MHash_closed, xorAll_swap hx hy]
  simp

/-- C11 on the group `[7, 9, 4]` at the positions `0` and `1`. -/
theorem C11_MHash_swap_same_witness :
    ([7, 9, 4] : List Nat)[0]? = some 7 ∧ ([7, 9, 4] : List Nat)[1]? = some 9 ∧
    swapAt [7, 9, 4] 0 1 = ([7, 9, 4].set 0 9).set 1 7 ∧
    MHash (swapAt [7, 9, 4] 0 1) = MHash [7, 9, 4] :=
  ⟨rfl, rfl, C11_MHash_swap_same [7, 9, 4] 0 1 7 9 rfl rfl⟩

/-- C11 as stated fails on the group `[1, 2]`: the positions `0` and `1` differ
in parity and hold different values, and the exchanged group `[2, 1]` has the
same `MHash` result, `4294967292`. -/
theorem C11_MHash_swap_not_sensitive :
    0 % 2 ≠ 1 % 2 ∧ ([1, 2] : List Nat)[0]? ≠ ([1, 2] : List Nat)[1]? ∧
    swapAt [1, 2] 0 1 = [2, 1] ∧
    MHash [1, 2] = 4294967292 ∧ MHash [2, 1] = 4294967292 := by
  refine ⟨by decide, by decide, rfl, by decide, by decide⟩

/-! ## `OrHash` -/

theorem foldl_or_init (g : List Nat) :
    ∀ r, g.foldl (fun res n => res ||| n) r = r ||| OrHash g := by
  unfold OrHash
  induction g with
  | nil => intro r; simp
  | cons n rest ih =>
    intro r
    simp only [List.foldl_cons]
    rw [ih (r ||| n), ih (0 ||| n), Nat.zero_or, Nat.or_assoc]

theorem OrHash_cons (n : Nat) (rest : List Nat) : OrHash (n :: rest) = n ||| OrHash rest := by
  have h := foldl_or_init rest (0 ||| n)
  rw [Nat.zero_or] at h
  simp only [OrHash, List.foldl_cons, Nat.zero_or]
  exact h

theorem OrHash_append (g1 g2 : List Nat) : OrHash (g1 ++ g2) = OrHash g1 ||| OrHash g2 := by
  have h : OrHash (g1 ++ g2) = g2.foldl (fun res n => res ||| n) (OrHash g1) := by
    simp only [OrHash, List.foldl_append]
  rw [h, foldl_or_init]

theorem OrHash_perm {g g1 : List Nat} (hp : g.Perm g1) : OrHash g = OrHash g1 := by
  unfold OrHash
  apply hp.foldl_eq'
  intro x _ y _ z
  rw [Nat.or_assoc, Nat.or_comm x y, ← Nat.or_assoc]

theorem testBit_OrHash (k : Nat) :
    ∀ g : List Nat, (OrHash g).testBit k = true ↔ ∃ y ∈ g, y.testBit k = true := by
  intro g
  induction g with
  | nil => simp [OrHash]
  | cons n rest ih =>
    rw [OrHash_cons, Nat.testBit_or, Bool.or_eq_true, ih]
    simp

/-- C12: `OrHash` is the bitwise OR of the group: it is `0` on the empty group,
`a` on `[a]`, the OR of the results of the two parts on a concatenation, and
the same on every permutation of a group. -/
theorem C12_OrHash_or (a : Nat) (g1 g2 g g3 : List Nat) (hp : g.Perm g3) :
    OrHash [] = 0 ∧ OrHash [a] = a ∧ OrHash (g1 ++ g2) = OrHash g1 ||| OrHash g2 ∧
      OrHash g = OrHash g3 := by
  refine ⟨rfl, ?_, OrHash_append g1 g2, OrHash_perm hp⟩
  simp [OrHash]

/-- C12 at `a = 6`, the parts `[1, 2]` and `[4]`, and the groups `[1, 2, 4]`
and `[2, 1, 4]`. -/
theorem C12_OrHash_or_witness :
    ([1, 2, 4] : List Nat).Perm [2, 1, 4] ∧
    OrHash [] = 0 ∧ OrHash [6] = 6 ∧ OrHash ([1, 2] ++ [4]) = OrHash [1, 2] ||| OrHash [4] ∧
      OrHash [1, 2, 4] = OrHash [2, 1, 4] :=
  ⟨List.Perm.swap 2 1 [4], C12_OrHash_or 6 [1, 2] [4] [1, 2, 4] [2, 1, 4] (List.Perm.swap 2 1 [4])⟩

/-- C13: bit `k` of `OrHash g` is set exactly when it is set in some element of
`g` (for every `k`, so for `k < 32`); hence every bit set in `OrHash g` is set
in `OrHash (g ++ [x])`. -/
theorem C13_OrHash_monotonic (g : List Nat) (k x : Nat) :
    ((OrHash g).testBit k = true ↔ ∃ y ∈ g, y.testBit k = true) ∧
    ((OrHash g).testBit k = true → (OrHash (g ++ [x])).testBit k = true) := by
  refine ⟨testBit_OrHash k g, ?_⟩
  intro h
  rw [OrHash_append, Nat.testBit_or, h]
  rfl

/-- C13 on the group `[4, 1]`, bit `2` and the extra element `8`. -/
theorem C13_OrHash_monotonic_witness :
    (OrHash [4, 1]).testBit 2 = true ∧ (OrHash ([4, 1] ++ [8])).testBit 2 = true :=
  ⟨(C13_OrHash_monotonic [4, 1] 2 8).1.2 ⟨4, by simp, by decide⟩,
    (C13_OrHash_monotonic [4, 1] 2 8).2 (by decide)⟩

/-! ## Collapse under `PhiHash`, idempotence and frame -/

/-- C14: `PhiHash` is `0` on every group, so on a bitmap whose `HashFunc` is
`PhiHash`, with `Buckets > 0` and at least one word, every `Get` reads index
`0`, and returns its bit. -/
theorem C14_PhiHash_collapse (b : Bitmap) (items g : List Nat) (hf : b.HashFunc = PhiHash)
    (hB : 0 < b.Buckets) (hw : 0 < b.Bits.length) :
    PhiHash g = 0 ∧ b.HashFunc items % b.Buckets = 0 ∧ Get b items = getUnhashed b 0 ∧
      (Get b items = Except.ok 0 ∨ Get b items = Except.ok 1) := by
  have hidx : b.HashFunc items % b.Buckets = 0 := by
    rw [hf]
    simp [PhiHash]
  have hget : Get b items = getUnhashed b 0 := by
    rw [Get_of_pos items hB, hidx]
  refine ⟨rfl, hidx, hget, ?_⟩
  obtain ⟨w, hw0⟩ := @word_of_lt b 0 (by simpa using hw)
  rw [hget, getUnhashed_of_word hw0]
  cases w.testBit (0 % 32)
  · exact Or.inl rfl
  · exact Or.inr rfl

/-- C14 on the 16-bucket bitmap with the word `1` and the group `[3, 4]`. -/
theorem C14_PhiHash_collapse_witness :
    (Bitmap.mk [1] 1 16 PhiHash).HashFunc = PhiHash ∧ 0 < (Bitmap.mk [1] 1 16 PhiHash).Buckets ∧
    0 < (Bitmap.mk [1] 1 16 PhiHash).Bits.length ∧
    PhiHash [9] = 0 ∧ (Bitmap.mk [1] 1 16 PhiHash).HashFunc [3, 4] % 16 = 0 ∧
    Get (Bitmap.mk [1] 1 16 PhiHash) [3, 4] = getUnhashed (Bitmap.mk [1] 1 16 PhiHash) 0 ∧
    (Get (Bitmap.mk [1] 1 16 PhiHash) [3, 4] = Except.ok 0 ∨
      Get (Bitmap.mk [1] 1 16 PhiHash) [3, 4] = Except.ok 1) :=
  ⟨rfl, by decide, by decide,
    C14_PhiHash_collapse (Bitmap.mk [1] 1 16 PhiHash) [3, 4] [9] rfl (by decide) (by decide)⟩

theorem set_of_getElem? {l : List Nat} {i w : Nat} (h : l[i]? = some w) : l.set i w = l := by
  apply List.ext_getElem?
  intro n
  by_cases hn : i = n
  · subst hn
    rw [List.getElem?_set_self (List.getElem?_eq_some.1 h).1, h]
  · rw [List.getElem?_set_ne hn]

theorem or_two_pow_of_testBit {w k : Nat} (h : w.testBit k = true) : w ||| 2 ^ k = w := by
  apply Nat.eq_of_testBit_eq
  intro j
  rw [Nat.testBit_or, Nat.testBit_two_pow]
  by_cases hj : k = j
  · subst hj
    simp [h]
  · simp [hj]

/-- `Set` at an index that already reads `1` returns the bitmap as it was. -/
theorem Set_fixed {b : Bitmap} {i : Nat} (h : getUnhashed b i = Except.ok 1) :
    Set b i = Except.ok b := by
  by_cases hi : i / 32 < b.Bits.length
  · obtain ⟨w, hw⟩ := word_of_lt hi
    rw [getUnhashed_of_word hw, toNat_eq_one] at h
    rw [Set_of_word hw, or_two_pow_of_testBit h, set_of_getElem? hw]
  · rw [getUnhashed_of_not_lt hi] at h
    cases h

/-- When the loop of `Populate` succeeds, every index it passes to `Set` has
its word. -/
theorem populateLoop_ok_hit_lt (support : Nat) :
    ∀ (count : List Nat) (i : Nat) (b b1 : Bitmap),
      populateLoop support count i b = Except.ok b1 →
      ∀ j, hit support count i j = true → j / 32 < b.Bits.length := by
  intro count
  induction count with
  | nil =>
    intro i b b1 _ j hj
    simp [hit] at hj
  | cons v rest ih =>
    intro i b b1 h j hj
    by_cases hv : v ≥ support
    · simp only [populateLoop, if_pos hv] at h
      cases hs : Set b (i % u32) with
      | error e =>
        rw [hs] at h
        cases h
      | ok b2 =>
        rw [hs] at h
        have h0 : (i % u32) / 32 < b.Bits.length := by
          by_contra hcon
          rw [Set_of_not_lt hcon] at hs
          cases hs
        by_cases hr : hit support rest (i + 1) j = true
        · rw [← (Set_fields hs).1]
          exact ih (i + 1) b2 b1 h j hr
        · have hji : i % u32 = j := by
            simp [hit, hr] at hj
            exact hj.2
          rw [← hji]
          exact h0
    · simp only [populateLoop, if_neg hv] at h
      have hv2 : ¬ (support ≤ v) := hv
      have hr : hit support rest (i + 1) j = true := by
        simpa [hit, hv2] using hj
      exact ih (i + 1) b b1 h j hr

/-- What a successful loop of `Populate` leaves: each index reads `1` if it was
passed to `Set` and its old value otherwise. -/
theorem populateLoop_ok_reads {support : Nat} {count : List Nat} {i : Nat} {b b1 : Bitmap}
    (h : populateLoop support count i b = Except.ok b1) (j : Nat) :
    getUnhashed b1 j =
      if hit support count i j = true then Except.ok 1 else getUnhashed b j := by
  obtain ⟨b2, hrun, _, hread⟩ :=
    populateLoop_spec support count i b (populateLoop_ok_hit_lt support count i b b1 h)
  rw [h] at hrun
  injection hrun with hrun
  rw [hrun]
  exact hread j

/-- The loop of `Populate` returns the bitmap as it was when every index it
passes to `Set` already reads `1`. -/
theorem populateLoop_fixed (support : Nat) :
    ∀ (count : List Nat) (i : Nat) (b : Bitmap),
      (∀ j, hit support count i j = true → getUnhashed b j = Except.ok 1) →
      populateLoop support count i b = Except.ok b := by
  intro count
  induction count with
  | nil => intro i b _; rfl
  | cons v rest ih =>
    intro i b hall
    have hrest : populateLoop support rest (i + 1) b = Except.ok b :=
      ih (i + 1) b (fun j hj => hall j (by simp [hit, hj]))
    by_cases hv : v ≥ support
    · have hs : Set b (i % u32) = Except.ok b := Set_fixed (hall _ (by simp [hit, hv]))
      simp only [populateLoop, if_pos hv, hs]
      exact hrest
    · simp only [populateLoop, if_neg hv]
      exact hrest

/-- C15: `Set` and `Populate` are idempotent. `Set i` on a bitmap whose index
`i` already reads `1` returns the bitmap unchanged; after a successful `Set i` a
second `Set i` succeeds and changes nothing, and `Set i` does succeed when the
word of `i` exists; and after a successful `Populate`, on any bitmap, with or
without words, a second `Populate` with the same counts and support succeeds
and changes nothing. -/
theorem C15_Set_Populate_idempotent (b : Bitmap) (i : Nat) (count : List Nat) (support : Nat) :
    (getUnhashed b i = Except.ok 1 → Set b i = Except.ok b) ∧
    (∀ b1, Set b i = Except.ok b1 → Set b1 i = Except.ok b1) ∧
    (i / 32 < b.Bits.length → ∃ b1, Set b i = Except.ok b1 ∧ Set b1 i = Except.ok b1) ∧
    (∀ b2, Populate b count support = Except.ok b2 →
      Populate b2 count support = Except.ok b2) := by
  have htwice : ∀ b1, Set b i = Except.ok b1 → Set b1 i = Except.ok b1 := by
    intro b1 hs
    apply Set_fixed
    rw [getUnhashed_after_Set hs i, if_pos rfl]
  refine ⟨Set_fixed, htwice, ?_, ?_⟩
  · intro hi
    obtain ⟨w, hw⟩ := word_of_lt hi
    exact ⟨_, Set_of_word hw, htwice _ (Set_of_word hw)⟩
  · intro b2 hp
    apply populateLoop_fixed
    intro j hj
    rw [populateLoop_ok_reads hp j, if_pos hj]

/-- C15 on one zero word, with `Set 5` and `Populate [0, 5, 10, 2] 5`, and on
the bitmap without words, with `Populate [0, 1, 2, 3] 5`. -/
theorem C15_Set_Populate_idempotent_witness :
    Set (Bitmap.mk [0] 1 16 OrHash) 5 = Except.ok (Bitmap.mk [32] 1 16 OrHash) ∧
    Set (Bitmap.mk [32] 1 16 OrHash) 5 = Except.ok (Bitmap.mk [32] 1 16 OrHash) ∧
    Populate (Bitmap.mk [0] 1 16 OrHash) [0, 5, 10, 2] 5 = Except.ok (Bitmap.mk [6] 1 16 OrHash) ∧
    Populate (Bitmap.mk [6] 1 16 OrHash) [0, 5, 10, 2] 5 = Except.ok (Bitmap.mk [6] 1 16 OrHash) ∧
    Populate (Bitmap.mk [] 0 4 OrHash) [0, 1, 2, 3] 5 = Except.ok (Bitmap.mk [] 0 4 OrHash) :=
  ⟨rfl,
    (C15_Set_Populate_idempotent (Bitmap.mk [0] 1 16 OrHash) 5 [] 0).2.1
      (Bitmap.mk [32] 1 16 OrHash) rfl,
    rfl,
    (C15_Set_Populate_idempotent (Bitmap.mk [0] 1 16 OrHash) 5 [0, 5, 10, 2] 5).2.2.2
      (Bitmap.mk [6] 1 16 OrHash) rfl,
    (C15_Set_Populate_idempotent (Bitmap.mk [] 0 4 OrHash) 0 [0, 1, 2, 3] 5).2.2.2
      (Bitmap.mk [] 0 4 OrHash) rfl⟩

theorem Set_other_words {b b1 : Bitmap} {i : Nat} (hs : Set b i = Except.ok b1) (k : Nat)
    (hk : k ≠ i / 32) : b1.Bits[k]? = b.Bits[k]? := by
  by_cases hi : i / 32 < b.Bits.length
  · obtain ⟨w, hw⟩ := word_of_lt hi
    rw [Set_of_word hw] at hs
    injection hs with hs
    subst hs
    exact List.getElem?_set_ne (Ne.symm hk)
  · rw [Set_of_not_lt hi] at hs
    cases hs

/-- C16: every successful `Set` leaves the number of words, `Size`, `Buckets`
and `HashFunc` as they were and leaves every word other than word `index / 32`
as it was; and every successful `Populate`, on any bitmap, with or without
words, leaves the number of words, `Size`, `Buckets` and `HashFunc` as they
were. -/
theorem C16_Set_Populate_frame (b : Bitmap) (index : Nat) (count : List Nat) (support : Nat) :
    (∀ b1, Set b index = Except.ok b1 →
      (b1.Bits.length = b.Bits.length ∧ b1.Size = b.Size ∧ b1.Buckets = b.Buckets ∧
        b1.HashFunc = b.HashFunc) ∧
      (∀ k, k ≠ index / 32 → b1.Bits[k]? = b.Bits[k]?)) ∧
    (∀ b2, Populate b count support = Except.ok b2 →
      b2.Bits.length = b.Bits.length ∧ b2.Size = b.Size ∧ b2.Buckets = b.Buckets ∧
        b2.HashFunc = b.HashFunc) :=
  ⟨fun _ hs => ⟨Set_fields hs, Set_other_words hs⟩,
    fun b2 hp => populateLoop_fields support count 0 b b2 hp⟩

/-- C16 on two zero words, with `Set 37` and `Populate [0, 5, 10, 2] 5`, and on
the bitmap without words, with `Populate [0, 1, 2, 3] 5`. -/
theorem C16_Set_Populate_frame_witness :
    Set (Bitmap.mk [0, 0] 2 40 MHash) 37 = Except.ok (Bitmap.mk [0, 32] 2 40 MHash) ∧
    (∀ k, k ≠ 37 / 32 →
      (Bitmap.mk [0, 32] 2 40 MHash).Bits[k]? = (Bitmap.mk [0, 0] 2 40 MHash).Bits[k]?) ∧
    Populate (Bitmap.mk [0, 0] 2 40 MHash) [0, 5, 10, 2] 5
      = Except.ok (Bitmap.mk [6, 0] 2 40 MHash) ∧
    (Bitmap.mk [6, 0] 2 40 MHash).Bits.length = (Bitmap.mk [0, 0] 2 40 MHash).Bits.length ∧
    Populate (Bitmap.mk [] 0 4 MHash) [0, 1, 2, 3] 5 = Except.ok (Bitmap.mk [] 0 4 MHash) ∧
    (Bitmap.mk [] 0 4 MHash).Buckets = 4 :=
  ⟨rfl,
    ((C16_Set_Populate_frame (Bitmap.mk [0, 0] 2 40 MHash) 37 [] 0).1
      (Bitmap.mk [0, 32] 2 40 MHash) rfl).2,
    rfl,
    ((C16_Set_Populate_frame (Bitmap.mk [0, 0] 2 40 MHash) 37 [0, 5, 10, 2] 5).2
      (Bitmap.mk [6, 0] 2 40 MHash) rfl).1,
    rfl,
    ((C16_Set_Populate_frame (Bitmap.mk [] 0 4 MHash) 0 [0, 1, 2, 3] 5).2
      (Bitmap.mk [] 0 4 MHash) rfl).2.2.1⟩

/-! ## `log2` as written -/

theorem pow_window_unique {n a c : Nat} (ha : 2 ^ a ≤ n) (ha1 : n < 2 ^ (a + 1))
    (hc : 2 ^ c ≤ n) (hc1 : n < 2 ^ (c + 1)) : a = c := by
  by_contra hne
  rcases Nat.lt_or_gt_of_ne hne with h | h
  · have : 2 ^ (a + 1) ≤ 2 ^ c := Nat.pow_le_pow_right (by decide) h
    omega
  · have : 2 ^ (c + 1) ≤ 2 ^ a := Nat.pow_le_pow_right (by decide) h
    omega

theorem testBit_of_window {n k : Nat} (h1 : 2 ^ k ≤ n) (h2 : n < 2 ^ (k + 1)) :
    n.testBit k = true := by
  by_contra hcon
  have hf : n.testBit k = false := by simpa using hcon
  have := lt_two_pow_of_testBit_false h2 hf
  omega

/-- Clearing bit `0` of `n` does not change `log2 n`: the loop never tests it. -/
theorem log2_clear_bit_zero {n : Nat} (hn : n < u32) : log2 (2 * (n / 2)) = log2 n := by
  by_cases h2 : n < 2
  · have h0 : 2 * (n / 2) = 0 := by omega
    rw [h0, log2_of_lt_two h2]
    rfl
  · obtain ⟨k, hk1, _, hk3, hk4, hk5⟩ := log2_spec hn (by omega)
    have hn2 : 2 * (n / 2) < u32 := by omega
    obtain ⟨c, _, _, hc3, hc4, hc5⟩ := log2_spec hn2 (by omega)
    obtain ⟨d, rfl⟩ := Nat.exists_eq_add_of_le hk1
    have hpow : 2 ^ (1 + d) = 2 * 2 ^ d := by rw [pow_add]; norm_num
    have hlow : 2 ^ (1 + d) ≤ 2 * (n / 2) := by
      rw [hpow] at hk4 ⊢
      omega
    have hup : 2 * (n / 2) < 2 ^ (1 + d + 1) := by omega
    have hck : c = 1 + d := pow_window_unique hc4 hc5 hlow hup
    rw [hc3, hk3, hck]

/-- C17: `log2 0 = 0` and `log2 1 = 0`, bit `0` never changes the result, and
for every 32-bit `n ≥ 2`, `log2 n = k + 1` where `k` is the position of the
highest set bit of `n`; equivalently `2 ^ (log2 n - 1) ≤ n < 2 ^ log2 n`. -/
theorem C17_log2_highest_bit (n : Nat) (hn : n < u32) (h2 : 2 ≤ n) :
    log2 0 = 0 ∧ log2 1 = 0 ∧ log2 (2 * (n / 2)) = log2 n ∧
    (∃ k, log2 n = k + 1 ∧ 1 ≤ k ∧ k ≤ 31 ∧ n.testBit k = true ∧
      ∀ j, k < j → n.testBit j = false) ∧
    2 ^ (log2 n - 1) ≤ n ∧ n < 2 ^ log2 n := by
  obtain ⟨k, hk1, hk2, hk3, hk4, hk5⟩ := log2_spec hn h2
  refine ⟨by decide, by decide, log2_clear_bit_zero hn,
    ⟨k, hk3, hk1, hk2, testBit_of_window hk4 hk5, ?_⟩, ?_, ?_⟩
  · intro j hj
    apply Nat.testBit_lt_two_pow
    calc n < 2 ^ (k + 1) := hk5
      _ ≤ 2 ^ j := Nat.pow_le_pow_right (by decide) hj
  · rw [hk3]
    simpa using hk4
  · rw [hk3]
    exact hk5

/-- C17 at `n = 40`, whose highest set bit is bit `5`. -/
theorem C17_log2_highest_bit_witness :
    40 < u32 ∧ 2 ≤ 40 ∧ log2 40 = 6 ∧ 2 ^ (log2 40 - 1) ≤ 40 ∧ 40 < 2 ^ log2 40 :=
  ⟨by decide, by decide, by decide,
    (C17_log2_highest_bit 40 (by decide) (by decide)).2.2.2.2⟩

/-- C18 at the powers of two `2`, `4` and `1024`: `log2` returns `2`, `3` and
`11`, while `2 ≤ 2 ^ 1`, `4 ≤ 2 ^ 2` and `1024 ≤ 2 ^ 10`, so the smallest `k`
with `n ≤ 2 ^ k` is one less than the result. -/
theorem C18_log2_above_ceiling :
    log2 2 = 2 ∧ 2 ≤ 2 ^ 1 ∧ log2 4 = 3 ∧ 4 ≤ 2 ^ 2 ∧ log2 1024 = 11 ∧ 1024 ≤ 2 ^ 10 := by
  decide

/-! ## Which capacities give a bitmap that can be queried -/

theorem bitCount_small : ∀ c, c < 16 → pow2 (log2 c) / 32 = 0 := by
  decide

theorem NewBitmap_valid {length : Nat} {name : String}
    (hname : name = "OrHash" ∨ name = "MHash" ∨ name = "PhiHash") :
    ∃ b, NewBitmap length name = Except.ok b := by
  cases hh : hashes name with
  | none => exact absurd hname ((hashes_eq_none_iff name).1 hh)
  | some f => exact ⟨_, NewBitmap_of_hashes hh⟩

/-- C19: with one of the three names and a 32-bit capacity, `NewBitmap` returns
a bitmap. If `16 ≤ length < 2 ^ 31`, then on every state successful `Set` and
`Populate` calls reach from it every `Get` succeeds: the modulus is not `0` and
the index is below `32 * len(Bits)`. If `length < 16` or `length ≥ 2 ^ 31`, the
word array is empty, in every such state every `Get` fails (division by zero
when `length = 0`, index out of range otherwise) and every `Set` fails. -/
theorem C19_queryable_capacities (length : Nat) (name : String) (hlen : length < u32)
    (hname : name = "OrHash" ∨ name = "MHash" ∨ name = "PhiHash") :
    ∃ b, NewBitmap length name = Except.ok b ∧
      ((16 ≤ length ∧ length < 2 ^ 31) →
        ∀ calls b1, runCalls b calls = Except.ok b1 → ∀ items,
          b1.Buckets ≠ 0 ∧ b1.HashFunc items % b1.Buckets < 32 * b1.Bits.length ∧
          (Get b1 items = Except.ok 0 ∨ Get b1 items = Except.ok 1)) ∧
      ((length < 16 ∨ 2 ^ 31 ≤ length) →
        b.Bits = [] ∧
        ∀ calls b1, runCalls b calls = Except.ok b1 →
          b1.Bits = [] ∧
          (∀ items, Get b1 items =
            Except.error (if length = 0 then Err.divideByZero else Err.indexOutOfRange)) ∧
          (∀ index, Set b1 index = Except.error Err.indexOutOfRange)) := by
  obtain ⟨b, hnew⟩ := @NewBitmap_valid length name hname
  obtain ⟨hbits, _, hbuckets, _⟩ := NewBitmap_ok hnew
  refine ⟨b, hnew, ?_, ?_⟩
  · rintro ⟨h16, hlt⟩ calls b1 hrun items
    obtain ⟨hl1, _, hb1, _⟩ := runCalls_fields calls b b1 hrun
    have hB : b1.Buckets = length := hb1.trans hbuckets
    have hwords : b1.Bits.length * 32 = pow2 (log2 length) := by
      rw [hl1, hbits, List.length_replicate]
      exact bitCount_div_mul h16 hlt
    obtain ⟨k, _, _, hk3, _, hk5⟩ := bitCount_spec (by omega) hlt
    have hmod : b1.HashFunc items % b1.Buckets < b1.Buckets := Nat.mod_lt _ (by omega)
    have hidx : b1.HashFunc items % b1.Buckets < 32 * b1.Bits.length := by omega
    refine ⟨by omega, hidx, ?_⟩
    obtain ⟨w, hw⟩ := @word_of_lt b1 (b1.HashFunc items % b1.Buckets) (by omega)
    rw [Get_of_pos items (by omega), getUnhashed_of_word hw]
    cases w.testBit ((b1.HashFunc items % b1.Buckets) % 32)
    · exact Or.inl rfl
    · exact Or.inr rfl
  · intro hcase
    have hzero : pow2 (log2 length) / 32 = 0 := by
      rcases hcase with h | h
      · exact bitCount_small length h
      · rw [bitCount_of_large h hlen]
    have hempty : b.Bits = [] := by
      rw [hbits, hzero]
      rfl
    refine ⟨hempty, ?_⟩
    intro calls b1 hrun
    obtain ⟨hl1, _, hb1, _⟩ := runCalls_fields calls b b1 hrun
    have hlen0 : b1.Bits.length = 0 := by rw [hl1, hempty]; rfl
    have hB : b1.Buckets = length := hb1.trans hbuckets
    refine ⟨List.length_eq_zero.1 hlen0, ?_, ?_⟩
    · intro items
      by_cases h0 : length = 0
      · rw [if_pos h0, Get_of_zero items (hB.trans h0)]
      · rw [if_neg h0, Get_of_pos items (by omega), getUnhashed_of_not_lt (by omega)]
    · intro index
      exact Set_of_not_lt (by omega)

/-- C19 at the capacity `16` with `OrHash`. -/
theorem C19_queryable_capacities_witness :
    16 < u32 ∧ ("OrHash" = "OrHash" ∨ "OrHash" = "MHash" ∨ "OrHash" = "PhiHash") ∧
    ∃ b, NewBitmap 16 "OrHash" = Except.ok b ∧
      ((16 ≤ 16 ∧ 16 < 2 ^ 31) →
        ∀ calls b1, runCalls b calls = Except.ok b1 → ∀ items,
          b1.Buckets ≠ 0 ∧ b1.HashFunc items % b1.Buckets < 32 * b1.Bits.length ∧
          (Get b1 items = Except.ok 0 ∨ Get b1 items = Except.ok 1)) ∧
      ((16 < 16 ∨ 2 ^ 31 ≤ 16) →
        b.Bits = [] ∧
        ∀ calls b1, runCalls b calls = Except.ok b1 →
          b1.Bits = [] ∧
          (∀ items, Get b1 items =
            Except.error (if 16 = 0 then Err.divideByZero else Err.indexOutOfRange)) ∧
          (∀ index, Set b1 index = Except.error Err.indexOutOfRange)) :=
  ⟨by decide, Or.inl rfl, C19_queryable_capacities 16 "OrHash" (by decide) (Or.inl rfl)⟩

/-! ## `MHash` in closed form -/

theorem xorAll_perm {g g1 : List Nat} (hp : g.Perm g1) : xorAll g = xorAll g1 := by
  unfold xorAll
  apply hp.foldl_eq'
  intro x _ y _ z
  rw [Nat.xor_assoc, Nat.xor_comm x y, ← Nat.xor_assoc]

/-- C20: `MHash g` is the exclusive or of all elements of `g`, XOR `0xFFFFFFFF`
when `len(g) / 2` is odd; hence `MHash` takes the same value on every
permutation of a group. -/
theorem C20_MHash_closed_form (g g1 : List Nat) (hp : g.Perm g1) :
    MHash g = xorAll g ^^^ (if (g.length / 2) % 2 = 1 then 4294967295 else 0) ∧
    MHash g = MHash g1 := by
  have hclosed : ∀ l : List Nat,
      MHash l = xorAll l ^^^ (if (l.length / 2) % 2 = 1 then 4294967295 else 0) := by
    intro l
    rw [MHash_closed]
    simp [maskFrom]
  refine ⟨hclosed g, ?_⟩
  rw [hclosed g, hclosed g1, xorAll_perm hp, hp.length_eq]

/-- C20 on the groups `[7, 9, 4]` and `[9, 7, 4]`. -/
theorem C20_MHash_closed_form_witness :
    ([7, 9, 4] : List Nat).Perm [9, 7, 4] ∧
    MHash [7, 9, 4] = xorAll [7, 9, 4] ^^^
      (if (([7, 9, 4] : List Nat).length / 2) % 2 = 1 then 4294967295 else 0) ∧
    MHash [7, 9, 4] = MHash [9, 7, 4] :=
  ⟨List.Perm.swap 9 7 [4], C20_MHash_closed_form [7, 9, 4] [9, 7, 4] (List.Perm.swap 9 7 [4])⟩

end GoBitmap
